import Mathlib

/-!
Shallow embedding of the decision-tree split-finding routines of
src/Week5.ipynb (functions `splits`, `split_data`, `MAE`,
`get_best_split`) over exact rational arithmetic.

Python/NumPy floats are modelled by `ℚ` extended with a NaN element:
`QN := Option ℚ`, where `none` plays the role of IEEE NaN
(`np.mean` of an empty array).  NaN propagates through `+` and `*`
(in IEEE arithmetic `0 * NaN = NaN`), and every ordered comparison
involving NaN is false, as in IEEE and hence in Python's `min`.
Python dicts are modelled as association lists in insertion order,
where re-assigning an existing key keeps its original position.
NumPy boolean-mask indexing `a[mask]` raises when the mask length
differs from the array length; this is modelled by `Option`.
-/

/-- Rational-with-NaN: `none` models the IEEE NaN produced by
`np.mean` of an empty array. -/
abbrev QN : Type := Option ℚ

/-- NaN-propagating addition on `QN`. -/
def addQN : QN → QN → QN
  | some a, some b => some (a + b)
  | _, _ => none

/-- NaN-propagating multiplication on `QN` (IEEE: `0 * NaN = NaN`). -/
def mulQN : QN → QN → QN
  | some a, some b => some (a * b)
  | _, _ => none

/-- IEEE-style `<` on `QN`: any comparison with NaN is false.
This is the comparison Python's `min` performs on float values. -/
def ltQN : QN → QN → Bool
  | some a, some b => decide (a < b)
  | _, _ => false

/-- IEEE-style `==` on `QN`: NaN is not equal to anything, itself
included.  Used by Python tuple comparison to find the first
differing component. -/
def eqQN : QN → QN → Bool
  | some a, some b => decide (a = b)
  | _, _ => false

/-- Python `<` on pairs of floats (CPython tuple comparison:
locate the first component where `==` fails, compare it with `<`;
if all components are `==`-equal the tuples are not `<`). -/
def ltPairQN (p q : QN × QN) : Bool :=
  if eqQN p.1 q.1 then
    if eqQN p.2 q.2 then false else ltQN p.2 q.2
  else ltQN p.1 q.1

/-- Model of `np.mean` on a list of rationals: NaN (`none`) on the empty
list, otherwise the arithmetic mean. -/
def npMean (l : List ℚ) : QN :=
  if l.length = 0 then none else some (l.sum / l.length)

/-- Model of `np.mean(np.absolute(l - np.mean(l)))`: the mean absolute
deviation of `l` from its own mean, NaN on the empty list. -/
def absDevMean (l : List ℚ) : QN :=
  match npMean l with
  | none => none
  | some m => npMean (l.map (fun v => |v - m|))

/-- The midpoint loop of `splits`:
`for i in range(len(x)-1): mid = (x_sorted[i] + x_sorted[i+1])/2`,
expressed structurally over consecutive pairs. -/
def midpoints : List ℚ → List ℚ
  | a :: b :: rest => (a + b) / 2 :: midpoints (b :: rest)
  | _ => []

/-- Model of `splits(x)` from the notebook: sort the input, return the list
of midpoints of consecutive pairs of the sorted copy. -/
def splits (x : List ℚ) : List ℚ :=
  midpoints (x.insertionSort (· ≤ ·))

/-- NumPy boolean-mask indexing `a[mask]`: keeps the entries of `a`
at the `true` positions of `mask`; raises (here `none`) when the
mask length differs from the array length. -/
def boolMask {α : Type} (mask : List Bool) (a : List α) : Option (List α) :=
  if mask.length = a.length then
    some ((mask.zip a).filterMap (fun p => if p.1 then some p.2 else none))
  else none

/-- Model of `split_data(x, y, split_pt)` from the notebook:
`mask = x > split_pt`, `anti_mask = x < split_pt`, then boolean-mask
`x` and `y` with each.  `none` models the NumPy `IndexError` raised
by `y[mask]` when `x` and `y` differ in length. -/
def split_data (x y : List ℚ) (split_pt : ℚ) :
    Option (List ℚ × List ℚ × List ℚ × List ℚ) := do
  let mask := x.map (fun v => decide (v > split_pt))
  let anti_mask := x.map (fun v => decide (v < split_pt))
  let x_true ← boolMask mask x
  let y_true ← boolMask mask y
  let x_false ← boolMask anti_mask x
  let y_false ← boolMask anti_mask y
  return (x_true, y_true, x_false, y_false)

/-- Model of `MAE(y, y_true, y_false)` from the notebook.  `old_mae` is the
mean absolute deviation of `y` from its mean; `new_mae` weighs each
branch's mean absolute deviation by its share of `y`.  The division
`len(y_true)/len(y)` raises `ZeroDivisionError` on empty `y`
(modelled by `Except.error`); an empty branch contributes NaN. -/
def MAE (y y_true y_false : List ℚ) : Except String (QN × QN) :=
  if y.length = 0 then .error "ZeroDivisionError"
  else
    let old_mae := absDevMean y
    let new_mae :=
      addQN (mulQN (some ((y_true.length : ℚ) / (y.length : ℚ))) (absDevMean y_true))
            (mulQN (some ((y_false.length : ℚ) / (y.length : ℚ))) (absDevMean y_false))
    .ok (old_mae, new_mae)

/-- Python dict assignment `d[k] = v`: overwrite in place when the
key exists (keeping its original position), append otherwise. -/
def dictInsert (d : List (ℚ × QN × QN)) (k : ℚ) (v : QN × QN) :
    List (ℚ × QN × QN) :=
  if d.any (fun p => p.1 = k) then
    d.map (fun p => if p.1 = k then (k, v) else p)
  else d ++ [(k, v)]

/-- Lookup in the association-list model of a Python dict. -/
def dictGet (d : List (ℚ × QN × QN)) (k : ℚ) : Option (QN × QN) :=
  match d.find? (fun p => p.1 = k) with
  | some p => some p.2
  | none => none

/-- The fold of Python `min`: keep the incumbent unless the
challenger's key value is strictly `<` it. -/
def pyMinGo (k : ℚ) (v : QN × QN) : List (ℚ × QN × QN) → ℚ
  | [] => k
  | (k2, v2) :: rest =>
      if ltPairQN v2 v then pyMinGo k2 v2 rest else pyMinGo k v rest

/-- Model of `min(results, key=results.get)`: minimum of the dict's keys under
Python tuple comparison of the values, first occurrence winning ties;
`ValueError` on an empty dict. -/
def pyMin (d : List (ℚ × QN × QN)) : Except String ℚ :=
  match d with
  | [] => .error "ValueError: min() arg is an empty sequence"
  | (k, v) :: rest => .ok (pyMinGo k v rest)

/-- The loop of `get_best_split`: for each split point, partition,
score, and store `results[point] = errors`. -/
def evalSplits (x y : List ℚ) :
    List ℚ → List (ℚ × QN × QN) → Except String (List (ℚ × QN × QN))
  | [], results => .ok results
  | point :: rest, results =>
      match split_data x y point with
      | none => .error "IndexError"
      | some (_, y_true, _, y_false) =>
        match MAE y y_true y_false with
        | .error e => .error e
        | .ok errors => evalSplits x y rest (dictInsert results point errors)

/-- Model of `get_best_split(data)` from the notebook: feature column, target
column, candidate thresholds, one `(old_mae, new_mae)` entry per
threshold, and the `min` of the dict by value. -/
def get_best_split (data : List (ℚ × ℚ)) :
    Except String (List (ℚ × QN × QN) × ℚ) := do
  let x := data.map Prod.fst
  let y := data.map Prod.snd
  let split_pts := splits x
  let results ← evalSplits x y split_pts []
  let best_point ← pyMin results
  return (results, best_point)

/-- The (5,2) demo array from the notebook: feature column
`[7,30,27,80,43]`, target column `[53,28,83,25,75]`. -/
def demoData : List (ℚ × ℚ) :=
  [(7, 53), (30, 28), (27, 83), (80, 25), (43, 75)]

theorem maskFilter_self (p : ℚ → Bool) :
    ∀ x : List ℚ,
      ((x.map p).zip x).filterMap (fun q => if q.1 then some q.2 else none) =
        x.filter p
  | [] => rfl
  | a :: rest => by
    simp only [List.map_cons, List.zip_cons_cons, List.filterMap_cons,
      List.filter_cons]
    cases p a <;> simp [maskFilter_self p rest]

theorem boolMask_map_self (p : ℚ → Bool) (x : List ℚ) :
    boolMask (x.map p) x = some (x.filter p) := by
  simp [boolMask, maskFilter_self]

theorem maskFilter_zip {α : Type} (p : ℚ → Bool) :
    ∀ (x : List ℚ) (a : List α), x.length = a.length →
      ((x.map p).zip a).filterMap (fun q => if q.1 then some q.2 else none) =
        ((x.zip a).filter (fun q => p q.1)).map Prod.snd
  | [], [], _ => rfl
  | [], _ :: _, h => by simp at h
  | _ :: _, [], h => by simp at h
  | v :: xs, b :: rest, h => by
    simp only [List.length_cons, Nat.add_right_cancel_iff] at h
    simp only [List.map_cons, List.zip_cons_cons, List.filterMap_cons,
      List.filter_cons]
    cases p v <;> simp [maskFilter_zip p xs rest h]

theorem boolMask_map_zip {α : Type} (p : ℚ → Bool) (x : List ℚ) (a : List α)
    (h : x.length = a.length) :
    boolMask (x.map p) a =
      some (((x.zip a).filter (fun q => p q.1)).map Prod.snd) := by
  simp [boolMask, h, maskFilter_zip p x a h]

theorem zip_filter_map_fst {α : Type} (p : ℚ → Bool) :
    ∀ (x : List ℚ) (a : List α), x.length = a.length →
      ((x.zip a).filter (fun q => p q.1)).map Prod.fst = x.filter p
  | [], [], _ => rfl
  | [], _ :: _, h => by simp at h
  | _ :: _, [], h => by simp at h
  | v :: xs, b :: rest, h => by
    simp only [List.length_cons, Nat.add_right_cancel_iff] at h
    simp only [List.zip_cons_cons, List.filter_cons]
    cases hv : p v <;> simp [hv, zip_filter_map_fst p xs rest h]

/-- Under index-aligned inputs, `split_data` returns exactly the
strictly-greater and strictly-smaller partitions, with targets carried
along the same filtered index set. -/
theorem split_data_eq (x y : List ℚ) (t : ℚ) (h : x.length = y.length) :
    split_data x y t = some
      (x.filter (fun v => decide (v > t)),
       ((x.zip y).filter (fun q => decide (q.1 > t))).map Prod.snd,
       x.filter (fun v => decide (v < t)),
       ((x.zip y).filter (fun q => decide (q.1 < t))).map Prod.snd) := by
  simp only [split_data, boolMask_map_self, boolMask_map_zip _ x y h,
    Option.bind_some, Option.some_bind]
  rfl

theorem length_filter_trichotomy (t : ℚ) :
    ∀ x : List ℚ,
      (x.filter (fun v => decide (v > t))).length
        + (x.filter (fun v => decide (v < t))).length
        + (x.filter (fun v => decide (v = t))).length = x.length
  | [] => rfl
  | a :: rest => by
    have ih := length_filter_trichotomy t rest
    simp only [gt_iff_lt] at ih
    rcases lt_trichotomy a t with hc | hc | hc <;>
      simp only [List.filter_cons] <;>
      simp [hc, ne_of_gt, ne_of_lt, not_lt_of_gt, lt_irrefl, List.length_cons] <;>
      omega

/-- C4: for index-aligned inputs, the partitioner keeps features
strictly greater than the threshold on the true side and strictly
smaller on the false side; features equal to the threshold land in
neither, and the three groups account for every sample. -/
theorem c4_strict_partition (x y : List ℚ) (t : ℚ) (h : x.length = y.length) :
    ∃ y_true y_false,
      split_data x y t =
        some (x.filter (fun v => decide (v > t)), y_true,
              x.filter (fun v => decide (v < t)), y_false) ∧
      (x.filter (fun v => decide (v > t))).length
        + (x.filter (fun v => decide (v < t))).length
        + (x.filter (fun v => decide (v = t))).length = x.length ∧
      (∀ v ∈ x.filter (fun v => decide (v > t)), v ≠ t) ∧
      (∀ v ∈ x.filter (fun v => decide (v < t)), v ≠ t) := by
  refine ⟨_, _, split_data_eq x y t h, length_filter_trichotomy t x, ?_, ?_⟩
  · intro v hv
    rw [List.mem_filter] at hv
    exact ne_of_gt (by exact_mod_cast of_decide_eq_true hv.2)
  · intro v hv
    rw [List.mem_filter] at hv
    exact ne_of_lt (by exact_mod_cast of_decide_eq_true hv.2)

/-- Closed instance of `c4_strict_partition` at a concrete input with
a feature value equal to the threshold. -/
theorem c4_strict_partition_witness :
    ([(1 : ℚ), 2, 3].length = [(10 : ℚ), 20, 30].length) ∧
    (∃ y_true y_false,
      split_data [(1 : ℚ), 2, 3] [(10 : ℚ), 20, 30] 2 =
        some ([(1 : ℚ), 2, 3].filter (fun v => decide (v > 2)), y_true,
              [(1 : ℚ), 2, 3].filter (fun v => decide (v < 2)), y_false) ∧
      ([(1 : ℚ), 2, 3].filter (fun v => decide (v > 2))).length
        + ([(1 : ℚ), 2, 3].filter (fun v => decide (v < 2))).length
        + ([(1 : ℚ), 2, 3].filter (fun v => decide (v = 2))).length
        = [(1 : ℚ), 2, 3].length ∧
      (∀ v ∈ [(1 : ℚ), 2, 3].filter (fun v => decide (v > 2)), v ≠ 2) ∧
      (∀ v ∈ [(1 : ℚ), 2, 3].filter (fun v => decide (v < 2)), v ≠ 2)) :=
  ⟨rfl, c4_strict_partition [(1 : ℚ), 2, 3] [(10 : ℚ), 20, 30] 2 rfl⟩

/-- C8: the partitioner fails (NumPy raises on the boolean-mask
indexing `y[mask]`) whenever the feature and target arrays differ in
length; no partitions are returned. -/
theorem c8_length_mismatch (x y : List ℚ) (t : ℚ)
    (h : x.length ≠ y.length) : split_data x y t = none := by
  simp [split_data, boolMask, h]

/-- Closed instance of `c8_length_mismatch`. -/
theorem c8_length_mismatch_witness :
    (([(1 : ℚ)].length ≠ ([] : List ℚ).length)) ∧
    split_data [(1 : ℚ)] ([] : List ℚ) 0 = none :=
  ⟨by simp, c8_length_mismatch [(1 : ℚ)] [] 0 (by simp)⟩

/-- C10: the partitioner is index-aligned and order-preserving: the
feature/target pairs on the true side are exactly the pairs of the
zipped input whose feature is strictly greater than the threshold, in
their original order, and symmetrically for the false side. -/
theorem c10_index_alignment (x y : List ℚ) (t : ℚ)
    (h : x.length = y.length) :
    split_data x y t = some
      (((x.zip y).filter (fun q => decide (q.1 > t))).map Prod.fst,
       ((x.zip y).filter (fun q => decide (q.1 > t))).map Prod.snd,
       ((x.zip y).filter (fun q => decide (q.1 < t))).map Prod.fst,
       ((x.zip y).filter (fun q => decide (q.1 < t))).map Prod.snd) := by
  rw [split_data_eq x y t h,
    zip_filter_map_fst (fun v => decide (v > t)) x y h,
    zip_filter_map_fst (fun v => decide (v < t)) x y h]

/-- Closed instance of `c10_index_alignment`. -/
theorem c10_index_alignment_witness :
    ([(1 : ℚ), 4, 2].length = [(10 : ℚ), 20, 30].length) ∧
    split_data [(1 : ℚ), 4, 2] [(10 : ℚ), 20, 30] 3 = some
      ((([(1 : ℚ), 4, 2].zip [(10 : ℚ), 20, 30]).filter
          (fun q => decide (q.1 > 3))).map Prod.fst,
       (([(1 : ℚ), 4, 2].zip [(10 : ℚ), 20, 30]).filter
          (fun q => decide (q.1 > 3))).map Prod.snd,
       (([(1 : ℚ), 4, 2].zip [(10 : ℚ), 20, 30]).filter
          (fun q => decide (q.1 < 3))).map Prod.fst,
       (([(1 : ℚ), 4, 2].zip [(10 : ℚ), 20, 30]).filter
          (fun q => decide (q.1 < 3))).map Prod.snd) :=
  ⟨rfl, c10_index_alignment [(1 : ℚ), 4, 2] [(10 : ℚ), 20, 30] 3 rfl⟩

/-- The feature column of `demoData`. -/
def demoX : List ℚ := [7, 30, 27, 80, 43]

/-- The target column of `demoData`. -/
def demoY : List ℚ := [53, 28, 83, 25, 75]

/-- The results dict the notebook records for `demoData`:
`{17: (21.04, 21.0), 28.5: (21.04, 18.93...), 36.5: (21.04, 21.33...),
61.5: (21.04, 15.4)}`, in exact rationals. -/
def demoResults : List (ℚ × QN × QN) :=
  [((17 : ℚ), (some ((526 : ℚ)/25), some (21 : ℚ))),
   ((57 : ℚ)/2, (some ((526 : ℚ)/25), some ((284 : ℚ)/15))),
   ((73 : ℚ)/2, (some ((526 : ℚ)/25), some ((64 : ℚ)/3))),
   ((123 : ℚ)/2, (some ((526 : ℚ)/25), some ((77 : ℚ)/5)))]

theorem demoData_map_fst : demoData.map Prod.fst = demoX := rfl

theorem demoData_map_snd : demoData.map Prod.snd = demoY := rfl

theorem splits_demoX : splits demoX = [17, 57/2, 73/2, 123/2] := by
  norm_num [splits, demoX, List.insertionSort, List.orderedInsert, midpoints]

theorem split_data_demo_17 : split_data demoX demoY 17 =
    some ([30, 27, 80, 43], [28, 83, 25, 75], [7], [53]) := by
  norm_num [demoX, demoY, split_data, boolMask, bind, Option.bind,
    List.filterMap_cons, List.filterMap_nil]

theorem split_data_demo_285 : split_data demoX demoY (57/2) =
    some ([30, 80, 43], [28, 25, 75], [7, 27], [53, 83]) := by
  norm_num [demoX, demoY, split_data, boolMask, bind, Option.bind,
    List.filterMap_cons, List.filterMap_nil]

theorem split_data_demo_365 : split_data demoX demoY (73/2) =
    some ([80, 43], [25, 75], [7, 30, 27], [53, 28, 83]) := by
  norm_num [demoX, demoY, split_data, boolMask, bind, Option.bind,
    List.filterMap_cons, List.filterMap_nil]

theorem split_data_demo_615 : split_data demoX demoY (123/2) =
    some ([80], [25], [7, 30, 27, 43], [53, 28, 83, 75]) := by
  norm_num [demoX, demoY, split_data, boolMask, bind, Option.bind,
    List.filterMap_cons, List.filterMap_nil]

theorem mae_demo_17 : MAE demoY [28, 83, 25, 75] [53] =
    .ok (some (526/25), some 21) := by
  norm_num [demoY, MAE, absDevMean, npMean, addQN, mulQN, abs]

theorem mae_demo_285 : MAE demoY [28, 25, 75] [53, 83] =
    .ok (some (526/25), some (284/15)) := by
  norm_num [demoY, MAE, absDevMean, npMean, addQN, mulQN, abs]

theorem mae_demo_365 : MAE demoY [25, 75] [53, 28, 83] =
    .ok (some (526/25), some (64/3)) := by
  norm_num [demoY, MAE, absDevMean, npMean, addQN, mulQN, abs]

theorem mae_demo_615 : MAE demoY [25] [53, 28, 83, 75] =
    .ok (some (526/25), some (77/5)) := by
  norm_num [demoY, MAE, absDevMean, npMean, addQN, mulQN, abs]

theorem evalSplits_demo :
    evalSplits demoX demoY [17, 57/2, 73/2, 123/2] [] = .ok demoResults := by
  simp only [evalSplits, split_data_demo_17, mae_demo_17, split_data_demo_285,
    mae_demo_285, split_data_demo_365, mae_demo_365, split_data_demo_615,
    mae_demo_615]
  norm_num [dictInsert, demoResults]

theorem pyMin_demo : pyMin demoResults = .ok (123/2) := by
  norm_num [demoResults, pyMin, pyMinGo, ltPairQN, eqQN, ltQN]

/-- C1: on the notebook's (5,2) demo array (feature `[7,30,27,80,43]`,
target `[53,28,83,25,75]`), `get_best_split` returns best threshold
`61.5 = 123/2`, and the returned mapping records, for that threshold,
`old_mae = 21.04 = 526/25` and `new_mae = 15.4 = 77/5`, exactly. -/
theorem c1_demo_best_split :
    get_best_split demoData = .ok (demoResults, (123 : ℚ)/2) ∧
    dictGet demoResults ((123 : ℚ)/2) =
      some (some ((526 : ℚ)/25), some ((77 : ℚ)/5)) := by
  constructor
  · simp only [get_best_split, demoData_map_fst, demoData_map_snd, splits_demoX,
      evalSplits_demo, bind, Except.bind, pyMin_demo, pure, Except.pure]
  · norm_num [demoResults, dictGet, List.find?]

theorem addQN_none_right (a : QN) : addQN a none = none := by
  cases a <;> rfl

theorem addQN_none_left (a : QN) : addQN none a = none := by
  cases a <;> rfl

theorem absDevMean_nil : absDevMean [] = none := rfl

/-- On a nonempty target array the scorer returns normally, with
`old_mae = absDevMean y` and the weighted `new_mae`. -/
theorem MAE_ok (y yt yf : List ℚ) (hl : y.length ≠ 0) :
    MAE y yt yf = .ok (absDevMean y,
      addQN (mulQN (some ((yt.length : ℚ) / (y.length : ℚ))) (absDevMean yt))
            (mulQN (some ((yf.length : ℚ) / (y.length : ℚ))) (absDevMean yf))) := by
  simp [MAE, hl]

/-- C9: the `old_mae` component of the scorer depends only on the full
target array: any two partition pairs give the same `old_mae`, equal to
the mean absolute deviation of the targets from their mean. -/
theorem c9_old_mae_only_y (y yt1 yf1 yt2 yf2 : List ℚ) (hy : y ≠ []) :
    ∃ old new1 new2,
      MAE y yt1 yf1 = .ok (old, new1) ∧
      MAE y yt2 yf2 = .ok (old, new2) ∧
      old = some ((y.map (fun v => |v - y.sum / y.length|)).sum / y.length) := by
  have hl : y.length ≠ 0 := fun h => hy (List.length_eq_zero.mp h)
  refine ⟨absDevMean y, _, _, MAE_ok y yt1 yf1 hl, MAE_ok y yt2 yf2 hl, ?_⟩
  simp [absDevMean, npMean, hl, List.length_map]

/-- Closed instance of `c9_old_mae_only_y` at `y = [1,3]`. -/
theorem c9_old_mae_only_y_witness :
    ([(1 : ℚ), 3] ≠ []) ∧
    ∃ old new1 new2,
      MAE [(1 : ℚ), 3] [1] [3] = .ok (old, new1) ∧
      MAE [(1 : ℚ), 3] [3] [1] = .ok (old, new2) ∧
      old = some (([(1 : ℚ), 3].map
        (fun v => |v - [(1 : ℚ), 3].sum / [(1 : ℚ), 3].length|)).sum /
          [(1 : ℚ), 3].length) :=
  ⟨by simp, c9_old_mae_only_y [(1 : ℚ), 3] [1] [3] [3] [1] (by simp)⟩

/-- C5 (amended part): when at least one partition is empty, the
scorer does not crash: it returns the NaN sentinel (`none`) as
`new_mae`. -/
theorem c5_empty_partition_nan (y yt yf : List ℚ) (hy : y ≠ [])
    (he : yt = [] ∨ yf = []) :
    ∃ old, MAE y yt yf = .ok (old, none) := by
  have hl : y.length ≠ 0 := fun h => hy (List.length_eq_zero.mp h)
  refine ⟨absDevMean y, ?_⟩
  rcases he with rfl | rfl
  · rw [MAE_ok _ _ _ hl, absDevMean_nil]
    simp [mulQN, addQN_none_left]
  · rw [MAE_ok _ _ _ hl, absDevMean_nil]
    simp [mulQN, addQN_none_right]

/-- Closed instance of `c5_empty_partition_nan`. -/
theorem c5_empty_partition_nan_witness :
    ([(4 : ℚ), 6] ≠ []) ∧ (([] : List ℚ) = [] ∨ [(4 : ℚ), 6] = []) ∧
    ∃ old, MAE [(4 : ℚ), 6] [] [(4 : ℚ), 6] = .ok (old, none) :=
  ⟨by simp, Or.inl rfl,
   c5_empty_partition_nan [(4 : ℚ), 6] [] [(4 : ℚ), 6] (by simp) (Or.inl rfl)⟩

/-- Concrete input list `[(2,1),(2,2),(5,3)]`: duplicated minimal feature. -/
def cexAData : List (ℚ × ℚ) := [(2, 1), (2, 2), (5, 3)]

/-- Feature column with a duplicated minimum: `[2,2,5]`. -/
def cexAX : List ℚ := [2, 2, 5]

/-- Target column for the `cexAX` example. -/
def cexAY : List ℚ := [1, 2, 3]

theorem splits_cexA : splits cexAX = [2, 7/2] := by
  norm_num [splits, cexAX, List.insertionSort, List.orderedInsert, midpoints]

theorem split_data_cexA_2 : split_data cexAX cexAY 2 =
    some ([5], [3], [], []) := by
  norm_num [cexAX, cexAY, split_data, boolMask, bind, Option.bind,
    List.filterMap_cons, List.filterMap_nil]

theorem split_data_cexA_35 : split_data cexAX cexAY (7/2) =
    some ([5], [3], [2, 2], [1, 2]) := by
  norm_num [cexAX, cexAY, split_data, boolMask, bind, Option.bind,
    List.filterMap_cons, List.filterMap_nil]

theorem mae_cexA_2 : MAE cexAY [3] [] = .ok (some (2/3), none) := by
  norm_num [cexAY, MAE, absDevMean, npMean, addQN, mulQN, abs]

theorem mae_cexA_35 : MAE cexAY [3] [1, 2] =
    .ok (some (2/3), some (1/3)) := by
  norm_num [cexAY, MAE, absDevMean, npMean, addQN, mulQN, abs]

theorem gbs_cexA : get_best_split cexAData =
    .ok ([((2 : ℚ), (some ((2 : ℚ)/3), none)),
          ((7 : ℚ)/2, (some ((2 : ℚ)/3), some ((1 : ℚ)/3)))], 2) := by
  have hx : cexAData.map Prod.fst = cexAX := rfl
  have hy : cexAData.map Prod.snd = cexAY := rfl
  have heval : evalSplits cexAX cexAY [2, 7/2] [] =
      .ok [((2 : ℚ), (some ((2 : ℚ)/3), none)),
           ((7 : ℚ)/2, (some ((2 : ℚ)/3), some ((1 : ℚ)/3)))] := by
    simp only [evalSplits, split_data_cexA_2, mae_cexA_2, split_data_cexA_35,
      mae_cexA_35]
    norm_num [dictInsert]
  have hmin : pyMin [((2 : ℚ), (some ((2 : ℚ)/3), none)),
      ((7 : ℚ)/2, (some ((2 : ℚ)/3), some ((1 : ℚ)/3)))] = .ok 2 := by
    norm_num [pyMin, pyMinGo, ltPairQN, eqQN, ltQN]
  simp only [get_best_split, hx, hy, splits_cexA, heval, bind, Except.bind,
    hmin, pure, Except.pure]

/-- C5 counterexample: on `[(2,1),(2,2),(5,3)]` the best threshold the
selector returns is `2`, whose scoring involved an empty false-side
partition (its recorded `new_mae` is the NaN sentinel `none`): a
threshold scored against an empty partition IS selected as best. -/
theorem c5_counterexample_nan_best :
    get_best_split cexAData =
      .ok ([((2 : ℚ), (some ((2 : ℚ)/3), none)),
            ((7 : ℚ)/2, (some ((2 : ℚ)/3), some ((1 : ℚ)/3)))], 2) ∧
    split_data [(2 : ℚ), 2, 5] [(1 : ℚ), 2, 3] 2 = some ([5], [3], [], []) := by
  refine ⟨gbs_cexA, ?_⟩
  have h := split_data_cexA_2
  simpa [cexAX, cexAY] using h

/-- Spec-side predicate, modelled from the spec's words: the returned
best threshold appears in the results mapping with a defined (non-NaN)
`new_mae` that is minimal among all recorded `new_mae` values. -/
def bestHasMinimalNewMae (R : List (ℚ × QN × QN)) (b : ℚ) : Prop :=
  ∃ mb old, (b, (old, some mb)) ∈ R ∧
    ∀ p ∈ R, ∃ m, p.2.2 = some m ∧ mb ≤ m

/-- Concrete input `[(2,5),(2,7),(6,9)]`: duplicated minimal feature. -/
def cexBData : List (ℚ × ℚ) := [(2, 5), (2, 7), (6, 9)]

/-- Feature column with a duplicated minimum: `[2,2,6]`. -/
def cexBX : List ℚ := [2, 2, 6]

/-- Target column for the `cexBX` example. -/
def cexBY : List ℚ := [5, 7, 9]

theorem splits_cexB : splits cexBX = [2, 4] := by
  norm_num [splits, cexBX, List.insertionSort, List.orderedInsert, midpoints]

theorem split_data_cexB_2 : split_data cexBX cexBY 2 =
    some ([6], [9], [], []) := by
  norm_num [cexBX, cexBY, split_data, boolMask, bind, Option.bind,
    List.filterMap_cons, List.filterMap_nil]

theorem split_data_cexB_4 : split_data cexBX cexBY 4 =
    some ([6], [9], [2, 2], [5, 7]) := by
  norm_num [cexBX, cexBY, split_data, boolMask, bind, Option.bind,
    List.filterMap_cons, List.filterMap_nil]

theorem mae_cexB_2 : MAE cexBY [9] [] = .ok (some (4/3), none) := by
  norm_num [cexBY, MAE, absDevMean, npMean, addQN, mulQN, abs]

theorem mae_cexB_4 : MAE cexBY [9] [5, 7] =
    .ok (some (4/3), some (2/3)) := by
  norm_num [cexBY, MAE, absDevMean, npMean, addQN, mulQN, abs]

theorem gbs_cexB : get_best_split cexBData =
    .ok ([((2 : ℚ), (some ((4 : ℚ)/3), none)),
          ((4 : ℚ), (some ((4 : ℚ)/3), some ((2 : ℚ)/3)))], 2) := by
  have hx : cexBData.map Prod.fst = cexBX := rfl
  have hy : cexBData.map Prod.snd = cexBY := rfl
  have heval : evalSplits cexBX cexBY [2, 4] [] =
      .ok [((2 : ℚ), (some ((4 : ℚ)/3), none)),
           ((4 : ℚ), (some ((4 : ℚ)/3), some ((2 : ℚ)/3)))] := by
    simp only [evalSplits, split_data_cexB_2, mae_cexB_2, split_data_cexB_4,
      mae_cexB_4]
    norm_num [dictInsert]
  have hmin : pyMin [((2 : ℚ), (some ((4 : ℚ)/3), none)),
      ((4 : ℚ), (some ((4 : ℚ)/3), some ((2 : ℚ)/3)))] = .ok 2 := by
    norm_num [pyMin, pyMinGo, ltPairQN, eqQN, ltQN]
  simp only [get_best_split, hx, hy, splits_cexB, heval, bind, Except.bind,
    hmin, pure, Except.pure]

/-- C2 counterexample: on `[(2,5),(2,7),(6,9)]` the selector returns
best threshold `2`, but `2`'s recorded `new_mae` is NaN while
threshold `4` has the (unique) minimal defined `new_mae = 2/3`: the
returned best is NOT the threshold whose `new_mae` is minimal. -/
theorem c2_counterexample_nan_best :
    get_best_split cexBData =
      .ok ([((2 : ℚ), (some ((4 : ℚ)/3), none)),
            ((4 : ℚ), (some ((4 : ℚ)/3), some ((2 : ℚ)/3)))], 2) ∧
    ¬ bestHasMinimalNewMae
        [((2 : ℚ), (some ((4 : ℚ)/3), none)),
         ((4 : ℚ), (some ((4 : ℚ)/3), some ((2 : ℚ)/3)))] 2 := by
  refine ⟨gbs_cexB, ?_⟩
  rintro ⟨mb, old, hmem, -⟩
  have h24 : (2 : ℚ) ≠ 4 := by norm_num
  rcases List.mem_cons.mp hmem with h | h
  · exact Option.noConfusion (congrArg (fun q => q.2.2) h)
  · rcases List.mem_cons.mp h with h2 | h2
    · exact h24 (congrArg Prod.fst h2)
    · simp at h2

theorem midpoints_length : ∀ l : List ℚ, (midpoints l).length = l.length - 1
  | [] => rfl
  | [_] => rfl
  | a :: b :: rest => by
    have ih := midpoints_length (b :: rest)
    simp only [midpoints, List.length_cons] at ih ⊢
    omega

theorem midpoints_getD : ∀ (l : List ℚ) (i : ℕ), i + 1 < l.length →
    (midpoints l).getD i 0 = (l.getD i 0 + l.getD (i + 1) 0) / 2
  | [], i, h => by simp at h
  | [_], i, h => by simp at h
  | _ :: _ :: _, 0, _ => rfl
  | a :: b :: rest, i + 1, h => by
    have h' : i + 1 < (b :: rest).length := by
      simp only [List.length_cons] at h ⊢; omega
    simpa only [midpoints, List.getD_cons_succ] using
      midpoints_getD (b :: rest) i h'

theorem sorted_getD_lt (l : List ℚ) (hs : l.Sorted (· < ·)) (i : ℕ)
    (h : i + 1 < l.length) : l.getD i 0 < l.getD (i + 1) 0 := by
  have hi : i < l.length := by omega
  rw [List.getD_eq_getElem l 0 hi, List.getD_eq_getElem l 0 h]
  have := hs.rel_get_of_lt (a := ⟨i, hi⟩) (b := ⟨i + 1, h⟩)
    (by simp [Fin.lt_def])
  simpa using this

/-- C3: for a duplicate-free input of length at least 2, `splits`
returns exactly `n-1` midpoints; the `i`-th is the arithmetic midpoint
of the `i`-th and `(i+1)`-th entries of the sorted copy of the input,
and lies strictly between them. -/
theorem c3_splits_are_midpoints (x : List ℚ) (h2 : 2 ≤ x.length)
    (hd : x.Nodup) :
    (splits x).length = x.length - 1 ∧
    ∀ i, i + 1 < x.length →
      (splits x).getD i 0 =
        ((x.insertionSort (· ≤ ·)).getD i 0 +
         (x.insertionSort (· ≤ ·)).getD (i + 1) 0) / 2 ∧
      (x.insertionSort (· ≤ ·)).getD i 0 < (splits x).getD i 0 ∧
      (splits x).getD i 0 < (x.insertionSort (· ≤ ·)).getD (i + 1) 0 := by
  have hlen : (x.insertionSort (· ≤ ·)).length = x.length :=
    List.length_insertionSort _ x
  have hsle : (x.insertionSort (· ≤ ·)).Sorted (· ≤ ·) :=
    List.sorted_insertionSort _ x
  have hnd : (x.insertionSort (· ≤ ·)).Nodup :=
    (List.Perm.nodup_iff (List.perm_insertionSort _ x)).mpr hd
  have hslt : (x.insertionSort (· ≤ ·)).Sorted (· < ·) := hsle.lt_of_le hnd
  constructor
  · rw [splits, midpoints_length, hlen]
  · intro i hi
    have hi' : i + 1 < (x.insertionSort (· ≤ ·)).length := by omega
    have hmid := midpoints_getD (x.insertionSort (· ≤ ·)) i hi'
    have hlt := sorted_getD_lt (x.insertionSort (· ≤ ·)) hslt i hi'
    refine ⟨by rw [splits]; exact hmid, ?_, ?_⟩ <;> rw [splits, hmid] <;>
      linarith

/-- Closed instance of `c3_splits_are_midpoints` on the demo feature
column. -/
theorem c3_splits_are_midpoints_witness :
    (2 ≤ [(7 : ℚ), 30, 27, 80, 43].length) ∧
    [(7 : ℚ), 30, 27, 80, 43].Nodup ∧
    ((splits [(7 : ℚ), 30, 27, 80, 43]).length =
        [(7 : ℚ), 30, 27, 80, 43].length - 1 ∧
      ∀ i, i + 1 < [(7 : ℚ), 30, 27, 80, 43].length →
        (splits [(7 : ℚ), 30, 27, 80, 43]).getD i 0 =
          (([(7 : ℚ), 30, 27, 80, 43].insertionSort (· ≤ ·)).getD i 0 +
           ([(7 : ℚ), 30, 27, 80, 43].insertionSort (· ≤ ·)).getD (i + 1) 0)
            / 2 ∧
        ([(7 : ℚ), 30, 27, 80, 43].insertionSort (· ≤ ·)).getD i 0 <
          (splits [(7 : ℚ), 30, 27, 80, 43]).getD i 0 ∧
        (splits [(7 : ℚ), 30, 27, 80, 43]).getD i 0 <
          ([(7 : ℚ), 30, 27, 80, 43].insertionSort (· ≤ ·)).getD (i + 1) 0) :=
  ⟨by decide, by decide,
   c3_splits_are_midpoints [(7 : ℚ), 30, 27, 80, 43] (by decide) (by decide)⟩

/-- C7 counterexample: on inputs of length 0 and 1 the threshold
generator does not fail: it returns the empty list of candidates. -/
theorem c7_counterexample_returns_empty :
    splits [(5 : ℚ)] = [] ∧ splits ([] : List ℚ) = [] := ⟨rfl, rfl⟩

/-- C7 (amended): for every input with fewer than 2 elements, `splits`
returns the empty list (no candidates) rather than failing. -/
theorem c7_short_input_empty (x : List ℚ) (h : x.length < 2) :
    splits x = [] := by
  match x with
  | [] => rfl
  | [_] => rfl
  | a :: b :: rest => simp only [List.length_cons] at h; omega

/-- Closed instance of `c7_short_input_empty`. -/
theorem c7_short_input_empty_witness :
    ([(9 : ℚ)].length < 2) ∧ splits [(9 : ℚ)] = [] :=
  ⟨by decide, c7_short_input_empty [(9 : ℚ)] (by decide)⟩

theorem mulQN_none_right (a : QN) : mulQN a none = none := by
  cases a <;> rfl

theorem insertionSort_replicate (c : ℚ) :
    ∀ n, (List.replicate n c).insertionSort (· ≤ ·) = List.replicate n c
  | 0 => rfl
  | n + 1 => by
    rw [List.replicate_succ, List.insertionSort, insertionSort_replicate c n]
    cases n with
    | zero => rfl
    | succ m =>
      rw [List.replicate_succ, List.orderedInsert, if_pos le_rfl,
        ← List.replicate_succ, ← List.replicate_succ]

theorem midpoints_replicate (c : ℚ) :
    ∀ n, midpoints (List.replicate n c) = List.replicate (n - 1) c
  | 0 => rfl
  | 1 => rfl
  | n + 2 => by
    have ih := midpoints_replicate c (n + 1)
    rw [show List.replicate (n + 2) c = c :: c :: List.replicate n c by
      rw [List.replicate_succ, List.replicate_succ]]
    rw [show List.replicate (n + 1) c = c :: List.replicate n c from
      List.replicate_succ c n] at ih
    rw [midpoints, ih, show (c + c) / 2 = c by ring]
    rw [show (n + 2) - 1 = (n + 1 - 1) + 1 by omega, List.replicate_succ]

theorem filter_replicate_of_false (c : ℚ) (p : ℚ → Bool) (hp : p c = false) :
    ∀ n, (List.replicate n c).filter p = []
  | 0 => rfl
  | n + 1 => by
    rw [List.replicate_succ, List.filter_cons, if_neg (by simp [hp])]
    exact filter_replicate_of_false c p hp n

theorem zip_filter_of_fst_false {α : Type} (p : ℚ → Bool) :
    ∀ (x : List ℚ) (a : List α), (∀ v ∈ x, p v = false) →
      (x.zip a).filter (fun q => p q.1) = []
  | [], _, _ => by simp
  | _ :: _, [], _ => by simp
  | v :: xs, b :: rest, h => by
    rw [List.zip_cons_cons, List.filter_cons,
      if_neg (by simp [h v (List.mem_cons_self v xs)])]
    exact zip_filter_of_fst_false p xs rest
      (fun w hw => h w (List.mem_cons_of_mem v hw))

/-- On a constant feature column, partitioning at the common value
drops every sample: both partitions are empty. -/
theorem split_data_const (x y : List ℚ) (c : ℚ) (h : x.length = y.length)
    (hc : ∀ v ∈ x, v = c) :
    split_data x y c = some ([], [], [], []) := by
  have hgt : ∀ v ∈ x, decide (v > c) = false := fun v hv => by
    simp [hc v hv]
  have hlt : ∀ v ∈ x, decide (v < c) = false := fun v hv => by
    simp [hc v hv]
  have h1 : x.filter (fun v => decide (v > c)) = [] :=
    List.filter_eq_nil_iff.mpr (fun v hv => by simp [hc v hv])
  have h2 : x.filter (fun v => decide (v < c)) = [] :=
    List.filter_eq_nil_iff.mpr (fun v hv => by simp [hc v hv])
  have h3 : (x.zip y).filter (fun q => decide (q.1 > c)) = [] :=
    zip_filter_of_fst_false _ x y hgt
  have h4 : (x.zip y).filter (fun q => decide (q.1 < c)) = [] :=
    zip_filter_of_fst_false _ x y hlt
  rw [split_data_eq x y c h, h1, h2, h3, h4]
  rfl

/-- C6 (amended): on a feature column with a single distinct value `c`
(length at least 2), `get_best_split` does not fail: it returns the
one-entry mapping `{c ↦ (old_mae, NaN)}` and best threshold `c`. -/
theorem c6_constant_feature_ok (data : List (ℚ × ℚ)) (c : ℚ)
    (h2 : 2 ≤ data.length) (hc : ∀ p ∈ data, p.1 = c) :
    get_best_split data =
      .ok ([(c, (absDevMean (data.map Prod.snd), none))], c) := by
  have hxc : ∀ v ∈ data.map Prod.fst, v = c := by
    intro v hv
    rcases List.mem_map.mp hv with ⟨p, hp, rfl⟩
    exact hc p hp
  have hxy : (data.map Prod.fst).length = (data.map Prod.snd).length := by
    simp
  have hyl : (data.map Prod.snd).length ≠ 0 := by
    simp only [List.length_map]; omega
  have hx : data.map Prod.fst = List.replicate data.length c := by
    have := List.eq_replicate_length.mpr hxc
    simpa using this
  have hsd : split_data (data.map Prod.fst) (data.map Prod.snd) c =
      some ([], [], [], []) := split_data_const _ _ c hxy hxc
  have hmae : MAE (data.map Prod.snd) [] [] =
      .ok (absDevMean (data.map Prod.snd), none) := by
    rw [MAE_ok _ _ _ hyl, absDevMean_nil, mulQN_none_right, addQN_none_right]
  have hsplits : splits (data.map Prod.fst) =
      List.replicate (data.length - 1) c := by
    rw [hx, splits, insertionSort_replicate, midpoints_replicate]
  have hstep : ∀ m, evalSplits (data.map Prod.fst) (data.map Prod.snd)
      (List.replicate m c) [(c, (absDevMean (data.map Prod.snd), none))] =
      .ok [(c, (absDevMean (data.map Prod.snd), none))] := by
    intro m
    induction m with
    | zero => rfl
    | succ k ih =>
      rw [List.replicate_succ]
      simp only [evalSplits, hsd, hmae]
      rw [show dictInsert [(c, (absDevMean (data.map Prod.snd), none))] c
          (absDevMean (data.map Prod.snd), none) =
          [(c, (absDevMean (data.map Prod.snd), none))] by
        simp [dictInsert]]
      exact ih
  have heval : evalSplits (data.map Prod.fst) (data.map Prod.snd)
      (splits (data.map Prod.fst)) [] =
      .ok [(c, (absDevMean (data.map Prod.snd), none))] := by
    rw [hsplits, show data.length - 1 = (data.length - 2) + 1 by omega,
      List.replicate_succ]
    simp only [evalSplits, hsd, hmae]
    rw [show dictInsert [] c (absDevMean (data.map Prod.snd), none) =
        [(c, (absDevMean (data.map Prod.snd), none))] by simp [dictInsert]]
    exact hstep (data.length - 2)
  have hmin : pyMin [(c, (absDevMean (data.map Prod.snd), none))] =
      .ok c := rfl
  simp only [get_best_split, heval, bind, Except.bind, hmin, pure,
    Except.pure]

/-- Closed instance of `c6_constant_feature_ok`. -/
theorem c6_constant_feature_ok_witness :
    (2 ≤ ([((5 : ℚ), 1), (5, 2)]).length) ∧
    (∀ p ∈ [((5 : ℚ), 1), (5, 2)], p.1 = 5) ∧
    get_best_split [((5 : ℚ), 1), (5, 2)] =
      .ok ([((5 : ℚ),
            (absDevMean ([((5 : ℚ), 1), (5, 2)].map Prod.snd), none))], 5) :=
  ⟨by decide, by decide,
   c6_constant_feature_ok [((5 : ℚ), 1), (5, 2)] 5 (by decide) (by decide)⟩

/-- Concrete input `[(4,1),(4,2),(4,3)]`: a single-distinct-value
feature column. -/
def cexCData : List (ℚ × ℚ) := [(4, 1), (4, 2), (4, 3)]

/-- Constant feature column `[4,4,4]`. -/
def cexCX : List ℚ := [4, 4, 4]

/-- Target column for the `cexCX` example. -/
def cexCY : List ℚ := [1, 2, 3]

theorem splits_cexC : splits cexCX = [4, 4] := by
  norm_num [splits, cexCX, List.insertionSort, List.orderedInsert, midpoints]

theorem split_data_cexC_4 : split_data cexCX cexCY 4 =
    some ([], [], [], []) := by
  norm_num [cexCX, cexCY, split_data, boolMask, bind, Option.bind,
    List.filterMap_cons, List.filterMap_nil]

theorem mae_cexC_4 : MAE cexCY [] [] = .ok (some (2/3), none) := by
  norm_num [cexCY, MAE, absDevMean, npMean, addQN, mulQN, abs]

/-- C6 counterexample: on the all-equal feature column
`[(4,1),(4,2),(4,3)]` the selector does not raise any error: it
returns the mapping `{4 ↦ (2/3, NaN)}` with best threshold `4`. -/
theorem c6_counterexample_no_failure :
    get_best_split cexCData =
      .ok ([((4 : ℚ), (some ((2 : ℚ)/3), none))], 4) := by
  have hx : cexCData.map Prod.fst = cexCX := rfl
  have hy : cexCData.map Prod.snd = cexCY := rfl
  have heval : evalSplits cexCX cexCY [4, 4] [] =
      .ok [((4 : ℚ), (some ((2 : ℚ)/3), none))] := by
    simp only [evalSplits, split_data_cexC_4, mae_cexC_4]
    norm_num [dictInsert]
  have hmin : pyMin [((4 : ℚ), (some ((2 : ℚ)/3), none))] = .ok 4 := rfl
  simp only [get_best_split, hx, hy, splits_cexC, heval, bind, Except.bind,
    hmin, pure, Except.pure]

/-- The `(old_mae, new_mae)` pair `get_best_split` stores for one
candidate threshold: partition with `split_data`, score with `MAE`.
(The junk value `(none, none)` is never reached on aligned nonempty
inputs.) -/
def scoreAt (x y : List ℚ) (t : ℚ) : QN × QN :=
  match split_data x y t with
  | some (_, y_true, _, y_false) =>
    match MAE y y_true y_false with
    | .ok v => v
    | .error _ => (none, none)
  | none => (none, none)

theorem absDevMean_some (l : List ℚ) (hl : l.length ≠ 0) :
    ∃ m, absDevMean l = some m := by
  simp [absDevMean, npMean, hl]

theorem scoreAt_eq (x y : List ℚ) (t : ℚ) (hxy : x.length = y.length)
    (hy : y.length ≠ 0) :
    scoreAt x y t =
      (absDevMean y,
       addQN
         (mulQN (some (((((x.zip y).filter
             (fun q => decide (q.1 > t))).map Prod.snd).length : ℚ) /
             (y.length : ℚ)))
           (absDevMean (((x.zip y).filter
             (fun q => decide (q.1 > t))).map Prod.snd)))
         (mulQN (some (((((x.zip y).filter
             (fun q => decide (q.1 < t))).map Prod.snd).length : ℚ) /
             (y.length : ℚ)))
           (absDevMean (((x.zip y).filter
             (fun q => decide (q.1 < t))).map Prod.snd)))) := by
  simp only [scoreAt, split_data_eq x y t hxy, MAE_ok _ _ _ hy]

theorem scoreAt_fst (x y : List ℚ) (t : ℚ) (hxy : x.length = y.length)
    (hy : y.length ≠ 0) : (scoreAt x y t).1 = absDevMean y := by
  rw [scoreAt_eq x y t hxy hy]

theorem zip_filter_map_snd_length {α : Type} (p : ℚ → Bool) (x : List ℚ)
    (a : List α) (h : x.length = a.length) :
    (((x.zip a).filter (fun q => p q.1)).map Prod.snd).length =
      (x.filter p).length := by
  rw [← zip_filter_map_fst p x a h]
  simp [List.length_map]

theorem scoreAt_snd_some (x y : List ℚ) (t : ℚ) (hxy : x.length = y.length)
    (hy : y.length ≠ 0)
    (hgt : x.filter (fun v => decide (v > t)) ≠ [])
    (hlt : x.filter (fun v => decide (v < t)) ≠ []) :
    ∃ m, (scoreAt x y t).2 = some m := by
  have hgt' : (((x.zip y).filter
      (fun q => decide (q.1 > t))).map Prod.snd).length ≠ 0 := by
    rw [zip_filter_map_snd_length (fun v => decide (v > t)) x y hxy]
    simpa [List.length_eq_zero] using hgt
  have hlt' : (((x.zip y).filter
      (fun q => decide (q.1 < t))).map Prod.snd).length ≠ 0 := by
    rw [zip_filter_map_snd_length (fun v => decide (v < t)) x y hxy]
    simpa [List.length_eq_zero] using hlt
  obtain ⟨m1, hm1⟩ := absDevMean_some _ hgt'
  obtain ⟨m2, hm2⟩ := absDevMean_some _ hlt'
  rw [scoreAt_eq x y t hxy hy]
  rw [show ((absDevMean y,
      addQN
        (mulQN (some (((((x.zip y).filter
            (fun q => decide (q.1 > t))).map Prod.snd).length : ℚ) /
            (y.length : ℚ)))
          (absDevMean (((x.zip y).filter
            (fun q => decide (q.1 > t))).map Prod.snd)))
        (mulQN (some (((((x.zip y).filter
            (fun q => decide (q.1 < t))).map Prod.snd).length : ℚ) /
            (y.length : ℚ)))
          (absDevMean (((x.zip y).filter
            (fun q => decide (q.1 < t))).map Prod.snd)))) : QN × QN).2 =
      addQN
        (mulQN (some (((((x.zip y).filter
            (fun q => decide (q.1 > t))).map Prod.snd).length : ℚ) /
            (y.length : ℚ)))
          (absDevMean (((x.zip y).filter
            (fun q => decide (q.1 > t))).map Prod.snd)))
        (mulQN (some (((((x.zip y).filter
            (fun q => decide (q.1 < t))).map Prod.snd).length : ℚ) /
            (y.length : ℚ)))
          (absDevMean (((x.zip y).filter
            (fun q => decide (q.1 < t))).map Prod.snd))) from rfl]
  rw [hm1, hm2]
  exact ⟨_, rfl⟩

theorem dictInsert_entry_mem (d : List (ℚ × QN × QN)) (k : ℚ) (v : QN × QN) :
    ∀ q ∈ dictInsert d k v, q = (k, v) ∨ q ∈ d := by
  intro q hq
  unfold dictInsert at hq
  by_cases hany : d.any (fun p => p.1 = k)
  · rw [if_pos hany] at hq
    rcases List.mem_map.mp hq with ⟨p, hp, rfl⟩
    by_cases hpk : p.1 = k
    · left; rw [if_pos hpk]
    · right; rw [if_neg hpk]; exact hp
  · rw [if_neg hany] at hq
    rcases List.mem_append.mp hq with h | h
    · right; exact h
    · left; simpa using h

theorem dictInsert_keys_of_any (d : List (ℚ × QN × QN)) (k : ℚ) (v : QN × QN)
    (h : d.any (fun p => p.1 = k) = true) :
    (dictInsert d k v).map Prod.fst = d.map Prod.fst := by
  unfold dictInsert
  rw [if_pos h, List.map_map]
  refine List.map_congr_left ?_
  intro p _
  by_cases hpk : p.1 = k
  · simp [hpk]
  · simp [hpk]

theorem dictInsert_keys_of_not_any (d : List (ℚ × QN × QN)) (k : ℚ)
    (v : QN × QN) (h : d.any (fun p => p.1 = k) = false) :
    (dictInsert d k v).map Prod.fst = d.map Prod.fst ++ [k] := by
  unfold dictInsert
  rw [if_neg (by simp [h]), List.map_append]
  rfl

theorem mem_keys_dictInsert (d : List (ℚ × QN × QN)) (k t' : ℚ)
    (v : QN × QN) :
    t' ∈ (dictInsert d k v).map Prod.fst ↔
      t' ∈ d.map Prod.fst ∨ t' = k := by
  cases hany : d.any (fun p => p.1 = k) with
  | true =>
    rw [dictInsert_keys_of_any d k v hany]
    have hk : k ∈ d.map Prod.fst := by
      rcases List.any_eq_true.mp hany with ⟨p, hp, hpk⟩
      exact List.mem_map.mpr ⟨p, hp, of_decide_eq_true hpk⟩
    constructor
    · exact Or.inl
    · rintro (h | rfl)
      · exact h
      · exact hk
  | false =>
    rw [dictInsert_keys_of_not_any d k v hany]
    simp [List.mem_append]

/-- One step of the `get_best_split` loop on aligned nonempty data:
partition, score, store. -/
theorem evalSplits_cons (x y : List ℚ) (hxy : x.length = y.length)
    (hy : y.length ≠ 0) (t : ℚ) (rest : List ℚ)
    (d : List (ℚ × QN × QN)) :
    evalSplits x y (t :: rest) d =
      evalSplits x y rest (dictInsert d t (scoreAt x y t)) := by
  have hs := scoreAt_eq x y t hxy hy
  simp only [evalSplits, split_data_eq x y t hxy, MAE_ok _ _ _ hy, ← hs]

/-- Full characterization of the `get_best_split` loop on aligned
nonempty data: it succeeds, every stored entry is the score of its
key, the key set is the candidate set, and sortedness of the pending
keys transfers to the result keys. -/
theorem evalSplits_full (x y : List ℚ) (hxy : x.length = y.length)
    (hy : y.length ≠ 0) :
    ∀ (pts : List ℚ) (d : List (ℚ × QN × QN)),
      (∀ q ∈ d, q.2 = scoreAt x y q.1) →
      ∃ R, evalSplits x y pts d = .ok R ∧
        (∀ q ∈ R, q.2 = scoreAt x y q.1) ∧
        (∀ t', t' ∈ R.map Prod.fst ↔ t' ∈ d.map Prod.fst ∨ t' ∈ pts) ∧
        (List.Sorted (· ≤ ·) (d.map Prod.fst ++ pts) →
          List.Sorted (· ≤ ·) (R.map Prod.fst))
  | [], d, hinv => by
    refine ⟨d, rfl, hinv, by simp, by simp⟩
  | t :: rest, d, hinv => by
    rw [evalSplits_cons x y hxy hy t rest d]
    have hinv' : ∀ q ∈ dictInsert d t (scoreAt x y t),
        q.2 = scoreAt x y q.1 := by
      intro q hq
      rcases dictInsert_entry_mem d t (scoreAt x y t) q hq with rfl | hq'
      · rfl
      · exact hinv q hq'
    obtain ⟨R, hok, hRinv, hRkeys, hRsorted⟩ :=
      evalSplits_full x y hxy hy rest (dictInsert d t (scoreAt x y t)) hinv'
    refine ⟨R, hok, hRinv, ?_, ?_⟩
    · intro t'
      rw [hRkeys t', mem_keys_dictInsert d t t' (scoreAt x y t),
        List.mem_cons]
      tauto
    · intro hsorted
      refine hRsorted ?_
      cases hany : d.any (fun p => p.1 = t) with
      | true =>
        rw [dictInsert_keys_of_any d t _ hany]
        exact hsorted.sublist
          (List.Sublist.append_left (List.sublist_cons_self t rest) _)
      | false =>
        rw [dictInsert_keys_of_not_any d t _ hany]
        rw [show d.map Prod.fst ++ [t] ++ rest =
          d.map Prod.fst ++ (t :: rest) by simp]
        exact hsorted

theorem midpoints_ge_head : ∀ (b : ℚ) (rest : List ℚ),
    List.Sorted (· ≤ ·) (b :: rest) → ∀ z ∈ midpoints (b :: rest), b ≤ z
  | _, [], _, z, hz => by simp [midpoints] at hz
  | b, c :: rest', hs, z, hz => by
    rw [midpoints] at hz
    have hbc : b ≤ c :=
      (List.sorted_cons.mp hs).1 c (List.mem_cons_self c rest')
    rcases List.mem_cons.mp hz with rfl | hz'
    · linarith
    · have := midpoints_ge_head c rest' (List.sorted_cons.mp hs).2 z hz'
      linarith

theorem midpoints_sorted : ∀ l : List ℚ,
    List.Sorted (· ≤ ·) l → List.Sorted (· ≤ ·) (midpoints l)
  | [], _ => by simp [midpoints]
  | [_], _ => by simp [midpoints]
  | a :: b :: rest, hs => by
    rw [midpoints]
    rcases List.sorted_cons.mp hs with ⟨ha, hs'⟩
    refine List.sorted_cons.mpr ⟨?_, midpoints_sorted (b :: rest) hs'⟩
    intro z hz
    have hb := midpoints_ge_head b rest hs' z hz
    have hab : a ≤ b := ha b (List.mem_cons_self b rest)
    linarith

/-- The candidate thresholds come out in ascending order. -/
theorem splits_sorted (x : List ℚ) : List.Sorted (· ≤ ·) (splits x) :=
  midpoints_sorted _ (List.sorted_insertionSort _ x)

theorem ltPairQN_some_same (c m2 mv : ℚ) :
    ltPairQN (some c, some m2) (some c, some mv) = decide (m2 < mv) := by
  by_cases h : m2 = mv
  · subst h
    simp [ltPairQN, eqQN, ltQN, lt_irrefl]
  · simp [ltPairQN, eqQN, ltQN, h]

/-- Python `min` over entries whose values share a defined first
component and have defined second components: the result is the
first entry attaining the minimal second component (the incumbent is
kept on ties), and with ascending keys it is also the least such
key. -/
theorem pyMinGo_spec (c : ℚ) :
    ∀ (rest : List (ℚ × QN × QN)) (k : ℚ) (mv : ℚ),
      (∀ p ∈ rest, ∃ m, p.2 = ((some c : QN), (some m : QN))) →
      (∀ p ∈ rest, k ≤ p.1) →
      List.Sorted (· ≤ ·) (rest.map Prod.fst) →
      ∃ mb,
        ((pyMinGo k (some c, some mv) rest = k ∧ mb = mv) ∨
          ((pyMinGo k (some c, some mv) rest,
            ((some c : QN), (some mb : QN))) ∈ rest ∧ mb < mv)) ∧
        ∀ p ∈ rest, ∃ m, p.2.2 = some m ∧
          (mb < m ∨ (mb = m ∧ pyMinGo k (some c, some mv) rest ≤ p.1))
  | [], _, mv, _, _, _ => ⟨mv, Or.inl ⟨rfl, rfl⟩, by simp⟩
  | (k2, v2) :: rest', k, mv, hval, hk, hsorted => by
    obtain ⟨m2, hm2⟩ := hval (k2, v2) (List.mem_cons_self _ _)
    have hv2 : v2 = (some c, some m2) := hm2
    subst hv2
    rw [pyMinGo, ltPairQN_some_same c m2 mv]
    have hsc := List.sorted_cons.mp (by simpa using hsorted :
      List.Sorted (· ≤ ·) (k2 :: rest'.map Prod.fst))
    have hsorted' : List.Sorted (· ≤ ·) (rest'.map Prod.fst) := hsc.2
    have hk2le : ∀ p ∈ rest', k2 ≤ p.1 := fun p hp =>
      hsc.1 p.1 (List.mem_map.mpr ⟨p, hp, rfl⟩)
    have hvals' : ∀ p ∈ rest', ∃ m, p.2 = ((some c : QN), (some m : QN)) :=
      fun p hp => hval p (List.mem_cons_of_mem _ hp)
    by_cases hcmp : m2 < mv
    · rw [if_pos (by simpa using hcmp)]
      obtain ⟨mb, hcase, hall⟩ := pyMinGo_spec c rest' k2 m2 hvals' hk2le
        hsorted'
      refine ⟨mb, ?_, ?_⟩
      · rcases hcase with ⟨heq, rfl⟩ | ⟨hmem, hlt⟩
        · right
          exact ⟨by rw [heq]; exact List.mem_cons_self _ _, hcmp⟩
        · right
          exact ⟨List.mem_cons_of_mem _ hmem, hlt.trans hcmp⟩
      · intro p hp
        rcases List.mem_cons.mp hp with rfl | hp'
        · refine ⟨m2, rfl, ?_⟩
          rcases hcase with ⟨heq, rfl⟩ | ⟨_, hlt⟩
          · right; exact ⟨rfl, by rw [heq]⟩
          · left; exact hlt
        · exact hall p hp'
    · rw [if_neg (by simpa using hcmp)]
      have hkle' : ∀ p ∈ rest', k ≤ p.1 := fun p hp =>
        hk p (List.mem_cons_of_mem _ hp)
      obtain ⟨mb, hcase, hall⟩ := pyMinGo_spec c rest' k mv hvals' hkle'
        hsorted'
      have hmb_le_mv : mb ≤ mv := by
        rcases hcase with ⟨_, rfl⟩ | ⟨_, hlt⟩
        · exact le_refl _
        · exact le_of_lt hlt
      have hmv_le_m2 : mv ≤ m2 := le_of_not_lt hcmp
      refine ⟨mb, ?_, ?_⟩
      · rcases hcase with ⟨heq, hmb⟩ | ⟨hmem, hlt⟩
        · exact Or.inl ⟨heq, hmb⟩
        · exact Or.inr ⟨List.mem_cons_of_mem _ hmem, hlt⟩
      · intro p hp
        rcases List.mem_cons.mp hp with rfl | hp'
        · refine ⟨m2, rfl, ?_⟩
          by_cases hmbm2 : mb < m2
          · left; exact hmbm2
          · right
            have h2 : mb = m2 :=
              le_antisymm (hmb_le_mv.trans hmv_le_m2) (le_of_not_lt hmbm2)
            refine ⟨h2, ?_⟩
            rcases hcase with ⟨heq, _⟩ | ⟨_, hlt⟩
            · rw [heq]
              exact hk (k2, (some c, some m2)) (List.mem_cons_self _ _)
            · exfalso
              rw [h2] at hlt
              exact absurd hmv_le_m2 (not_le_of_lt hlt)
        · exact hall p hp'

/-- C2 (amended): on aligned data of length at least 2 in which every
candidate threshold yields two nonempty partitions, `get_best_split`
succeeds; the mapping's key set is exactly the candidate set, every
key is mapped to its `(old_mae, new_mae)` score, and the returned best
threshold carries the minimal `new_mae`, ties resolved to the first
occurrence in ascending threshold order (the least tied key). -/
theorem c2_minimal_new_mae_when_defined (data : List (ℚ × ℚ))
    (h2 : 2 ≤ data.length)
    (hne : ∀ t ∈ splits (data.map Prod.fst),
      (data.map Prod.fst).filter (fun v => decide (v > t)) ≠ [] ∧
      (data.map Prod.fst).filter (fun v => decide (v < t)) ≠ []) :
    ∃ R b, get_best_split data = .ok (R, b) ∧
      (∀ t, t ∈ R.map Prod.fst ↔ t ∈ splits (data.map Prod.fst)) ∧
      (∀ q ∈ R, q.2 = scoreAt (data.map Prod.fst) (data.map Prod.snd) q.1) ∧
      ∃ mb, (b, (absDevMean (data.map Prod.snd), some mb)) ∈ R ∧
        ∀ q ∈ R, ∃ m, q.2.2 = some m ∧ (mb < m ∨ (mb = m ∧ b ≤ q.1)) := by
  have hxy : (data.map Prod.fst).length = (data.map Prod.snd).length := by
    simp
  have hy : (data.map Prod.snd).length ≠ 0 := by
    rw [List.length_map]; omega
  obtain ⟨R, hok, hinv, hkeys, hsorted⟩ :=
    evalSplits_full (data.map Prod.fst) (data.map Prod.snd) hxy hy
      (splits (data.map Prod.fst)) [] (by simp)
  have hkeys' : ∀ t, t ∈ R.map Prod.fst ↔
      t ∈ splits (data.map Prod.fst) := by
    intro t; rw [hkeys t]; simp
  have hsortedR : List.Sorted (· ≤ ·) (R.map Prod.fst) :=
    hsorted (by simpa using splits_sorted (data.map Prod.fst))
  have hsplits_ne : splits (data.map Prod.fst) ≠ [] := by
    have hlen : (splits (data.map Prod.fst)).length =
        (data.map Prod.fst).length - 1 := by
      rw [splits, midpoints_length, List.length_insertionSort]
    rw [List.length_map] at hlen
    intro hnil
    rw [hnil] at hlen
    simp at hlen
    omega
  obtain ⟨t0, ht0⟩ := List.exists_mem_of_ne_nil _ hsplits_ne
  have hR_ne : R ≠ [] := by
    intro hnil
    have := (hkeys' t0).mpr ht0
    rw [hnil] at this
    simp at this
  obtain ⟨cq, hcq⟩ := absDevMean_some (data.map Prod.snd) hy
  have hfor : ∀ q ∈ R, ∃ m, q.2 = ((some cq : QN), (some m : QN)) := by
    intro q hq
    have hq1 : q.1 ∈ splits (data.map Prod.fst) :=
      (hkeys' q.1).mp (List.mem_map.mpr ⟨q, hq, rfl⟩)
    obtain ⟨hgt, hlt⟩ := hne q.1 hq1
    obtain ⟨m, hm⟩ := scoreAt_snd_some (data.map Prod.fst)
      (data.map Prod.snd) q.1 hxy hy hgt hlt
    refine ⟨m, ?_⟩
    have h1 : q.2.1 = some cq := by
      rw [hinv q hq, scoreAt_fst _ _ q.1 hxy hy, hcq]
    have h2 : q.2.2 = some m := by rw [hinv q hq]; exact hm
    rw [← h1, ← h2]
  obtain ⟨q0, rest, rfl⟩ := List.exists_cons_of_ne_nil hR_ne
  obtain ⟨k0, v0⟩ := q0
  obtain ⟨mv, hmv⟩ := hfor (k0, v0) (List.mem_cons_self _ _)
  have hv0 : v0 = (some cq, some mv) := hmv
  subst hv0
  have hsorted2 : List.Sorted (· ≤ ·) (k0 :: rest.map Prod.fst) := by
    simpa using hsortedR
  have hkrest : ∀ p ∈ rest, k0 ≤ p.1 := fun p hp =>
    (List.sorted_cons.mp hsorted2).1 p.1 (List.mem_map.mpr ⟨p, hp, rfl⟩)
  have hsorted3 : List.Sorted (· ≤ ·) (rest.map Prod.fst) :=
    (List.sorted_cons.mp hsorted2).2
  have hvalrest : ∀ p ∈ rest, ∃ m, p.2 = ((some cq : QN), (some m : QN)) :=
    fun p hp => hfor p (List.mem_cons_of_mem _ hp)
  obtain ⟨mb, hcase, hall⟩ :=
    pyMinGo_spec cq rest k0 mv hvalrest hkrest hsorted3
  refine ⟨(k0, ((some cq : QN), (some mv : QN))) :: rest,
    pyMinGo k0 (some cq, some mv) rest, ?_, hkeys', hinv, mb, ?_, ?_⟩
  · simp only [get_best_split, hok, bind, Except.bind, pyMin, pure,
      Except.pure]
  · rw [hcq]
    rcases hcase with ⟨heq, rfl⟩ | ⟨hmem, _⟩
    · rw [heq]
      exact List.mem_cons_self _ _
    · exact List.mem_cons_of_mem _ hmem
  · intro q hq
    rcases List.mem_cons.mp hq with rfl | hq'
    · refine ⟨mv, rfl, ?_⟩
      rcases hcase with ⟨heq, rfl⟩ | ⟨_, hlt⟩
      · right; exact ⟨rfl, le_of_eq heq⟩
      · left; exact hlt
    · exact hall q hq'

/-- Closed instance of `c2_minimal_new_mae_when_defined` on
`[(1,10),(2,20)]` (single candidate threshold `3/2`, both partitions
nonempty). -/
theorem c2_minimal_new_mae_when_defined_witness :
    (2 ≤ ([((1 : ℚ), 10), (2, 20)]).length) ∧
    (∀ t ∈ splits ([((1 : ℚ), 10), (2, 20)].map Prod.fst),
      ([((1 : ℚ), 10), (2, 20)].map Prod.fst).filter
        (fun v => decide (v > t)) ≠ [] ∧
      ([((1 : ℚ), 10), (2, 20)].map Prod.fst).filter
        (fun v => decide (v < t)) ≠ []) ∧
    (∃ R b, get_best_split [((1 : ℚ), 10), (2, 20)] = .ok (R, b) ∧
      (∀ t, t ∈ R.map Prod.fst ↔
        t ∈ splits ([((1 : ℚ), 10), (2, 20)].map Prod.fst)) ∧
      (∀ q ∈ R, q.2 = scoreAt ([((1 : ℚ), 10), (2, 20)].map Prod.fst)
        ([((1 : ℚ), 10), (2, 20)].map Prod.snd) q.1) ∧
      ∃ mb, (b, (absDevMean ([((1 : ℚ), 10), (2, 20)].map Prod.snd),
          some mb)) ∈ R ∧
        ∀ q ∈ R, ∃ m, q.2.2 = some m ∧
          (mb < m ∨ (mb = m ∧ b ≤ q.1))) := by
  have hts : splits ([((1 : ℚ), 10), (2, 20)].map Prod.fst) = [3/2] := by
    norm_num [splits, List.insertionSort, List.orderedInsert, midpoints]
  have hne : ∀ t ∈ splits ([((1 : ℚ), 10), (2, 20)].map Prod.fst),
      ([((1 : ℚ), 10), (2, 20)].map Prod.fst).filter
        (fun v => decide (v > t)) ≠ [] ∧
      ([((1 : ℚ), 10), (2, 20)].map Prod.fst).filter
        (fun v => decide (v < t)) ≠ [] := by
    intro t ht
    rw [hts] at ht
    have ht' : t = 3/2 := List.mem_singleton.mp ht
    subst ht'
    constructor <;> norm_num [List.filter]
  exact ⟨by decide, hne,
    c2_minimal_new_mae_when_defined [((1 : ℚ), 10), (2, 20)] (by decide) hne⟩
